import Mathlib

/-!
# Verification of the `regexp` pattern compiler and matcher

A shallow embedding of `src/lib.rs` of the `regexp` crate: a compiler
(`Regexp::new`) from a small pattern syntax to a token sequence, and a
recursive backtracking matcher (`Regexp::start_match`, `Regexp::matches`).

Modelling conventions:
* Strings are represented by their character sequences (`List Char`).
  `Regexp::new` collects `pattern.chars()` into a vector and scans it by
  character index, but its group rule slices the original *string* at those
  indices, i.e. at byte offsets; `byteDrop`/`byteTake`/`byteSlice` model
  that byte-offset slicing over the UTF-8 sizes of the characters.
* Rust panics are modelled explicitly: `ParseResult.panic` for the
  compiler (byte slicing outside a char boundary, `unwrap` of `None`) and
  `none : Option Match` for the matcher (the `unimplemented!()` arms).
* The `while` loops become recursion: `newLoop` is the scan loop of
  `Regexp::new`, `matchLoop` the token walk of `start_match` (carrying the
  still-unprocessed token suffix plus the absolute token index `i`, which
  the `Star` arm uses to seed its input position `j`), and `starLoop` the
  repetition loop of the `Star` arm.
-/

/-- Quantifier of a token, mirroring the Rust `enum Quantifier`. -/
inductive Quantifier : Type where
  | exact : Quantifier
  | star : Quantifier
  | optional : Quantifier
deriving DecidableEq

/-- Atom of a token, mirroring the Rust `enum Atom`; `expr` holds the token
sequence of a nested `Regexp` (the Rust `Expr(Regexp)` variant). -/
inductive Atom : Type where
  | wildcard : Atom
  | char : Char → Atom
  | expr : List (Atom × Quantifier) → Atom

/-- A token is an (atom, quantifier) pair, mirroring
`type Token = (Atom, Quantifier)`. -/
abbrev Token := Atom × Quantifier

/-- The token sequence of a compiled pattern, mirroring the `tokens` field
of the Rust `struct Regexp`. -/
abbrev Regexp := List Token

/-- Result of a match attempt, mirroring the Rust `enum Match`; `part n`
models `Match::Partial(n)`. -/
inductive Match : Type where
  | full : Match
  | part : Nat → Match
deriving DecidableEq

/-- Result of `Regexp::new`: `ok` models `Ok(Regexp { tokens })`, `err`
models `Err(RegexpParsingError { message })`, and `panic` models a Rust
panic (string slicing at a byte index that is not a char boundary, or an
`unwrap` of `None`). -/
inductive ParseResult : Type where
  | ok : Regexp → ParseResult
  | err : String → ParseResult
  | panic : ParseResult

/-- Outcome of the inner repetition loop of the `Star` arm of
`start_match`: `full` models `return Match::Full`, `fellThrough c` models
the loop finishing (by `break` or `j` reaching `chars.len()`) with
`consumed = c`, after which the outer token walk continues. -/
inductive StarOut : Type where
  | full : StarOut
  | fellThrough : Nat → StarOut

/-- Mirrors `matches!(tokens.last(), Some((_, Exact)))` from `Regexp::new`. -/
def isLastTokenExact (tokens : List Token) : Bool :=
  match tokens.getLast? with
  | some (_, Quantifier.exact) => true
  | _ => false

/-- The condition of the closing-delimiter scan in the `'('` arm of
`Regexp::new`: `chars[j] == ')' && chars[j - 1] != '\\'`.  (The Rust code
never evaluates `chars[j - 1]` with `j = 0`: that would need `chars[0]` to
be both `'('` and `')'`, so the `getD` at `j - 1 = 0` is unreachable when
the first conjunct holds at `j = 0`.) -/
def closeParenAt (chars : List Char) (j : Nat) : Bool :=
  chars.getD j ' ' = ')' && chars.getD (j - 1) ' ' != '\\'

/-- Mirrors `for j in (i..i+k).rev() { if closeParenAt chars j { return j } }`. -/
def scanFrom (chars : List Char) (i : Nat) : Nat → Option Nat
  | 0 => none
  | k + 1 => if closeParenAt chars (i + k) then some (i + k) else scanFrom chars i k

/-- The backwards scan `for j in (i..chars.len()).rev()` of the `'('` arm
of `Regexp::new`. -/
def scanFind (chars : List Char) (i : Nat) : Option Nat :=
  scanFrom chars i (chars.length - i)

/-- Drop the chars occupying the first `n` UTF-8 bytes of `cs`; `none` when
`n` is not a char boundary or exceeds the total byte length.  Models the
left end of the Rust byte-indexed string slice `&pattern[n..]`. -/
def byteDrop : List Char → Nat → Option (List Char)
  | cs, 0 => some cs
  | [], _ + 1 => none
  | c :: cs, n + 1 =>
    if c.utf8Size ≤ n + 1 then byteDrop cs (n + 1 - c.utf8Size) else none

/-- Take the chars occupying the first `n` UTF-8 bytes of `cs`; `none` when
`n` is not a char boundary or exceeds the total byte length. -/
def byteTake : List Char → Nat → Option (List Char)
  | _, 0 => some []
  | [], _ + 1 => none
  | c :: cs, n + 1 =>
    if c.utf8Size ≤ n + 1 then (byteTake cs (n + 1 - c.utf8Size)).map (c :: ·) else none

/-- The chars of the Rust string slice `&pattern[a..b]`, where `a` and `b`
are byte offsets into the UTF-8 encoding of `cs`; `none` models the
slicing panic (offset out of range, `a > b`, or not a char boundary). -/
def byteSlice (cs : List Char) (a b : Nat) : Option (List Char) :=
  if a ≤ b then (byteDrop cs a).bind (fun r => byteTake r (b - a)) else none

/-- The two non-panicking result shapes of `Regexp::new`: success, or the
unclosed-parenthesis error whose message carries a scan index. -/
def GoodResult (r : ParseResult) : Prop :=
  (∃ t, r = ParseResult.ok t) ∨
    (∃ n : Nat, r = ParseResult.err ("unclosed parenthesis at index " ++ toString n))

/-- Token sequences containing neither `Star`-quantified tokens nor group
atoms (the fragment on which the consumed-count bound of the matcher
holds). -/
def simpleTokens (toks : List Token) : Bool :=
  toks.all fun t =>
    (match t.1 with
      | Atom.wildcard => true
      | Atom.char _ => true
      | Atom.expr _ => false) &&
    !(t.2 = Quantifier.star)

theorem byteDrop_length_le : ∀ (cs : List Char) (n : Nat) (r : List Char),
    byteDrop cs n = some r → r.length ≤ cs.length := by
  intro cs
  induction cs with
  | nil =>
    intro n r h
    cases n with
    | zero => simp [byteDrop] at h; simp [h]
    | succ m => simp [byteDrop] at h
  | cons c cs ih =>
    intro n r h
    cases n with
    | zero =>
      simp [byteDrop] at h
      simp [← h]
    | succ m =>
      simp only [byteDrop] at h
      split at h
      · exact Nat.le_trans (ih _ _ h) (Nat.le_succ _)
      · exact absurd h (by simp)

theorem byteDrop_length_lt : ∀ (cs : List Char) (n : Nat) (r : List Char),
    byteDrop cs n = some r → n ≠ 0 → r.length < cs.length := by
  intro cs n r h hn
  cases cs with
  | nil =>
    cases n with
    | zero => exact absurd rfl hn
    | succ m => simp [byteDrop] at h
  | cons c cs =>
    cases n with
    | zero => exact absurd rfl hn
    | succ m =>
      simp only [byteDrop] at h
      split at h
      · exact Nat.lt_succ_of_le (byteDrop_length_le _ _ _ h)
      · exact absurd h (by simp)

theorem byteTake_length_le : ∀ (cs : List Char) (n : Nat) (r : List Char),
    byteTake cs n = some r → r.length ≤ cs.length := by
  intro cs
  induction cs with
  | nil =>
    intro n r h
    cases n with
    | zero => simp [byteTake] at h; simp [← h]
    | succ m => simp [byteTake] at h
  | cons c cs ih =>
    intro n r h
    cases n with
    | zero =>
      simp [byteTake] at h
      simp [h]
    | succ m =>
      simp only [byteTake] at h
      split at h
      · cases hbt : byteTake cs (m + 1 - c.utf8Size) with
        | none => rw [hbt] at h; simp [Option.map] at h
        | some s =>
          rw [hbt] at h
          simp [Option.map] at h
          rw [← h]
          simpa using Nat.succ_le_succ (ih _ _ hbt)
      · exact absurd h (by simp)

theorem byteSlice_length_lt (cs : List Char) (a b : Nat) (s : List Char)
    (h : byteSlice cs a b = some s) (ha : a ≠ 0) : s.length < cs.length := by
  unfold byteSlice at h
  split at h
  · cases hbd : byteDrop cs a with
    | none => rw [hbd] at h; simp at h
    | some r =>
      rw [hbd] at h
      simp only [Option.bind] at h
      exact Nat.lt_of_le_of_lt (byteTake_length_le _ _ _ h)
        (byteDrop_length_lt _ _ _ hbd ha)
  · exact absurd h (by simp)

theorem scanFrom_bounds : ∀ (chars : List Char) (i k j : Nat),
    scanFrom chars i k = some j → i ≤ j ∧ j < i + k := by
  intro chars i k
  induction k with
  | zero => intro j h; simp [scanFrom] at h
  | succ m ih =>
    intro j h
    simp only [scanFrom] at h
    split at h
    · simp at h
      omega
    · have := ih j h
      omega

theorem scanFind_bounds (chars : List Char) (i j : Nat)
    (h : scanFind chars i = some j) : i ≤ j ∧ j < chars.length := by
  have := scanFrom_bounds chars i (chars.length - i) j h
  omega

/-- The scanning loop of `Regexp::new`: `chars` is the full pattern char
sequence of the current invocation, `i` the scan index and `tokens` the
tokens emitted so far.  Each arm mirrors the corresponding arm of the Rust
`match chars[i]`; arms are tried in source order, so the escape arm
precedes everything and a quantifier character with the guard failed falls
through to the default (literal) arm. -/
def newLoop (chars : List Char) (i : Nat) (tokens : List Token) : ParseResult :=
  if h : i < chars.length then
    let c := chars.getD i ' '
    if i ≠ 0 ∧ chars.getD (i - 1) ' ' = '\\' then
      newLoop chars (i + 1) (tokens.dropLast ++ [(Atom.char c, Quantifier.exact)])
    else if c = '.' then
      newLoop chars (i + 1) (tokens ++ [(Atom.wildcard, Quantifier.exact)])
    else if c = '(' then
      match hsf : scanFind chars i with
      | some j =>
        match hbs : byteSlice chars (i + 1) j with
        | some sub =>
          match newLoop sub 0 [] with
          | ParseResult.ok subTokens =>
            newLoop chars (j + 1) (tokens ++ [(Atom.expr subTokens, Quantifier.exact)])
          | e => e
        | none => ParseResult.panic
      | none => ParseResult.err ("unclosed parenthesis at index " ++ toString i)
    else if (c = '*' ∨ c = '+' ∨ c = '?') ∧ isLastTokenExact tokens then
      match tokens.getLast? with
      | some (a, _) =>
        if c = '+' then
          newLoop chars (i + 1) (tokens ++ [(a, Quantifier.star)])
        else
          newLoop chars (i + 1)
            (tokens.dropLast ++
              [(a, if c = '*' then Quantifier.star else Quantifier.optional)])
      | none => ParseResult.panic
    else
      newLoop chars (i + 1) (tokens ++ [(Atom.char c, Quantifier.exact)])
  else
    ParseResult.ok tokens
termination_by (chars.length, chars.length - i)
decreasing_by
  · apply Prod.Lex.right
    omega
  · apply Prod.Lex.right
    omega
  · apply Prod.Lex.left
    exact byteSlice_length_lt _ _ _ _ hbs (by omega)
  · apply Prod.Lex.right
    have := scanFind_bounds chars i j hsf
    omega
  · apply Prod.Lex.right
    omega
  · apply Prod.Lex.right
    omega
  · apply Prod.Lex.right
    omega

/-- Mirrors `Regexp::new`, applied to the char sequence of the pattern string. -/
def Regexp.new (chars : List Char) : ParseResult :=
  newLoop chars 0 []

/-- Fuel-bounded mirror of `newLoop`, structurally recursive so that the
kernel can evaluate it on concrete inputs; `none` means the fuel ran out.
`newLoopF_sound` transports its results to `newLoop`. -/
def newLoopF : Nat → List Char → Nat → List Token → Option ParseResult
  | 0, _, _, _ => none
  | fuel + 1, chars, i, tokens =>
    if i < chars.length then
      let c := chars.getD i ' '
      if i ≠ 0 ∧ chars.getD (i - 1) ' ' = '\\' then
        newLoopF fuel chars (i + 1) (tokens.dropLast ++ [(Atom.char c, Quantifier.exact)])
      else if c = '.' then
        newLoopF fuel chars (i + 1) (tokens ++ [(Atom.wildcard, Quantifier.exact)])
      else if c = '(' then
        match scanFind chars i with
        | some j =>
          match byteSlice chars (i + 1) j with
          | some sub =>
            match newLoopF fuel sub 0 [] with
            | none => none
            | some (ParseResult.ok subTokens) =>
              newLoopF fuel chars (j + 1) (tokens ++ [(Atom.expr subTokens, Quantifier.exact)])
            | some e => some e
          | none => some ParseResult.panic
        | none => some (ParseResult.err ("unclosed parenthesis at index " ++ toString i))
      else if (c = '*' ∨ c = '+' ∨ c = '?') ∧ isLastTokenExact tokens then
        match tokens.getLast? with
        | some (a, _) =>
          if c = '+' then
            newLoopF fuel chars (i + 1) (tokens ++ [(a, Quantifier.star)])
          else
            newLoopF fuel chars (i + 1)
              (tokens.dropLast ++
                [(a, if c = '*' then Quantifier.star else Quantifier.optional)])
        | none => some ParseResult.panic
      else
        newLoopF fuel chars (i + 1) (tokens ++ [(Atom.char c, Quantifier.exact)])
    else
      some (ParseResult.ok tokens)

theorem Atom.one_le_sizeOf (a : Atom) : 1 ≤ sizeOf a := by
  cases a <;> simp

theorem one_le_sizeOf_tokens (l : List Token) : 1 ≤ sizeOf l := by
  cases l with
  | nil => simp
  | cons t l =>
    simp only [List.cons.sizeOf_spec]
    omega

mutual

/-- The `while i < self.tokens.len()` loop of `Regexp::start_match`.
`suffix` is `self.tokens[i..]` (the walk never revisits earlier tokens, so
the still-to-be-walked suffix together with the absolute index `i`
represents the loop state; `i == self.tokens.len() - 1` becomes
`rest.isEmpty`), `consumed` the characters matched so far and `chars` the
input of the current call.  `none` models a panic (the `unimplemented!()`
arms).  The absolute index `i` matters: the `Star` arm initializes its
input position `j` from it (`i += 1; let mut j = i;`). -/
def matchLoop (suffix : List Token) (i consumed : Nat) (chars : List Char) :
    Option Match :=
  match suffix with
  | [] =>
    if consumed = chars.length then some Match.full else some (Match.part consumed)
  | (value, Quantifier.exact) :: rest =>
    if consumed = chars.length then
      some (Match.part consumed)
    else
      match value_match_len_at_index chars consumed value with
      | none => none
      | some Match.full => none
      | some (Match.part justConsumed) =>
        if justConsumed = 0 then
          some (Match.part consumed)
        else
          matchLoop rest (i + 1) (consumed + justConsumed) chars
  | (value, Quantifier.star) :: rest =>
    if consumed = chars.length then
      if rest.isEmpty then some Match.full else some (Match.part consumed)
    else
      match starLoop rest value chars (i + 1) consumed with
      | none => none
      | some StarOut.full => some Match.full
      | some (StarOut.fellThrough consumed1) => matchLoop rest (i + 1) consumed1 chars
  | (value, Quantifier.optional) :: rest =>
    if consumed = chars.length then
      if rest.isEmpty then some Match.full else some (Match.part consumed)
    else
      match matchLoop rest 0 0 (chars.drop consumed) with
      | none => none
      | some Match.full => some Match.full
      | some (Match.part _) =>
        match value_match_len_at_index chars consumed value with
        | none => none
        | some Match.full => none
        | some (Match.part justConsumed) =>
          matchLoop rest (i + 1) (consumed + justConsumed) chars
termination_by (sizeOf suffix, 0)
decreasing_by
  all_goals simp_wf
  all_goals apply Prod.Lex.left
  all_goals omega

/-- The `while j < chars.len()` repetition loop of the `Star` arm:
`rest` is the token suffix after the star token, `value` its atom.  The
zero-repetition test `rest.start_match(&chars[j..])` runs before each
additional repetition of `value` is measured at position `j`. -/
def starLoop (rest : List Token) (value : Atom) (chars : List Char)
    (j consumed : Nat) : Option StarOut :=
  if h : j < chars.length then
    match matchLoop rest 0 0 (chars.drop j) with
    | none => none
    | some Match.full => some StarOut.full
    | some (Match.part _) =>
      match value_match_len_at_index chars j value with
      | none => none
      | some Match.full => none
      | some (Match.part justConsumed) =>
        if justConsumed = 0 then
          some (StarOut.fellThrough consumed)
        else
          starLoop rest value chars (j + 1) (consumed + justConsumed)
  else
    some (StarOut.fellThrough consumed)
termination_by (sizeOf rest + sizeOf value, chars.length - j)
decreasing_by
  · apply Prod.Lex.left
    have h1 := Atom.one_le_sizeOf value
    omega
  · apply Prod.Lex.left
    have h2 := one_le_sizeOf_tokens rest
    omega
  · apply Prod.Lex.right
    omega

/-- Mirrors `value_match_len_at_index`.  `Wildcard` never looks at the input;
`Char` indexes `chars` (panic — `none` — when out of bounds, which no
caller reaches); `Expr` runs `start_match` of the nested tree on the whole
of `chars`, ignoring `index`. -/
def value_match_len_at_index (chars : List Char) (index : Nat) (value : Atom) :
    Option Match :=
  match value with
  | Atom.wildcard => some (Match.part 1)
  | Atom.char chr =>
    if index < chars.length then
      some (Match.part (if chars.getD index ' ' = chr then 1 else 0))
    else
      none
  | Atom.expr e => matchLoop e 0 0 chars
termination_by (sizeOf value, 0)
decreasing_by
  simp_wf
  apply Prod.Lex.left
  omega

end

/-- Mirrors `Regexp::start_match`, with `none` modelling a panic. -/
def Regexp.start_match (r : Regexp) (chars : List Char) : Option Match :=
  matchLoop r 0 0 chars

/-- Mirrors `Regexp::matches` (`self.start_match(&chars) == Match::Full`), applied
to the char sequence of the input string; `none` models a panic. -/
def Regexp.matches (r : Regexp) (chars : List Char) : Option Bool :=
  match r.start_match chars with
  | none => none
  | some m => some (match m with | Match.full => true | Match.part _ => false)

mutual

/-- Fuel-bounded mirror of `matchLoop` (outer `none` = out of fuel, inner
option = the matcher's result with `none` = panic); kernel-evaluable.
`matcherF_sound` transports its results to `matchLoop`. -/
def matchLoopF : Nat → List Token → Nat → Nat → List Char → Option (Option Match)
  | 0, _, _, _, _ => none
  | fuel + 1, suffix, i, consumed, chars =>
    match suffix with
    | [] =>
      some (if consumed = chars.length then some Match.full else some (Match.part consumed))
    | (value, Quantifier.exact) :: rest =>
      if consumed = chars.length then
        some (some (Match.part consumed))
      else
        match valueF fuel chars consumed value with
        | none => none
        | some none => some none
        | some (some Match.full) => some none
        | some (some (Match.part justConsumed)) =>
          if justConsumed = 0 then
            some (some (Match.part consumed))
          else
            matchLoopF fuel rest (i + 1) (consumed + justConsumed) chars
    | (value, Quantifier.star) :: rest =>
      if consumed = chars.length then
        some (if rest.isEmpty then some Match.full else some (Match.part consumed))
      else
        match starLoopF fuel rest value chars (i + 1) consumed with
        | none => none
        | some none => some none
        | some (some StarOut.full) => some (some Match.full)
        | some (some (StarOut.fellThrough consumed1)) =>
          matchLoopF fuel rest (i + 1) consumed1 chars
    | (value, Quantifier.optional) :: rest =>
      if consumed = chars.length then
        some (if rest.isEmpty then some Match.full else some (Match.part consumed))
      else
        match matchLoopF fuel rest 0 0 (chars.drop consumed) with
        | none => none
        | some none => some none
        | some (some Match.full) => some (some Match.full)
        | some (some (Match.part _)) =>
          match valueF fuel chars consumed value with
          | none => none
          | some none => some none
          | some (some Match.full) => some none
          | some (some (Match.part justConsumed)) =>
            matchLoopF fuel rest (i + 1) (consumed + justConsumed) chars
termination_by structural fuel => fuel

/-- Fuel-bounded mirror of `starLoop`. -/
def starLoopF : Nat → List Token → Atom → List Char → Nat → Nat → Option (Option StarOut)
  | 0, _, _, _, _, _ => none
  | fuel + 1, rest, value, chars, j, consumed =>
    if j < chars.length then
      match matchLoopF fuel rest 0 0 (chars.drop j) with
      | none => none
      | some none => some none
      | some (some Match.full) => some (some StarOut.full)
      | some (some (Match.part _)) =>
        match valueF fuel chars j value with
        | none => none
        | some none => some none
        | some (some Match.full) => some none
        | some (some (Match.part justConsumed)) =>
          if justConsumed = 0 then
            some (some (StarOut.fellThrough consumed))
          else
            starLoopF fuel rest value chars (j + 1) (consumed + justConsumed)
    else
      some (some (StarOut.fellThrough consumed))
termination_by structural fuel => fuel

/-- Fuel-bounded mirror of `value_match_len_at_index`. -/
def valueF : Nat → List Char → Nat → Atom → Option (Option Match)
  | 0, _, _, _ => none
  | fuel + 1, chars, index, value =>
    match value with
    | Atom.wildcard => some (some (Match.part 1))
    | Atom.char chr =>
      some (if index < chars.length then
        some (Match.part (if chars.getD index ' ' = chr then 1 else 0))
      else
        none)
    | Atom.expr e => matchLoopF fuel e 0 0 chars
termination_by structural fuel => fuel

end

theorem byteDrop_ascii : ∀ (cs : List Char) (n : Nat),
    (∀ c ∈ cs, c.utf8Size = 1) → n ≤ cs.length → byteDrop cs n = some (cs.drop n) := by
  intro cs
  induction cs with
  | nil =>
    intro n _ hn
    have : n = 0 := by simpa using hn
    subst this
    simp [byteDrop]
  | cons c cs ih =>
    intro n hascii hn
    cases n with
    | zero => simp [byteDrop]
    | succ m =>
      have hc : c.utf8Size = 1 := hascii c (by simp)
      simp only [byteDrop, hc]
      rw [if_pos (by omega)]
      have : m + 1 - 1 = m := by omega
      rw [this]
      rw [ih m (fun d hd => hascii d (by simp [hd])) (by simpa using Nat.lt_succ_iff.mp (Nat.lt_of_succ_le hn))]
      simp

theorem byteTake_ascii : ∀ (cs : List Char) (n : Nat),
    (∀ c ∈ cs, c.utf8Size = 1) → n ≤ cs.length → byteTake cs n = some (cs.take n) := by
  intro cs
  induction cs with
  | nil =>
    intro n _ hn
    have : n = 0 := by simpa using hn
    subst this
    simp [byteTake]
  | cons c cs ih =>
    intro n hascii hn
    cases n with
    | zero => simp [byteTake]
    | succ m =>
      have hc : c.utf8Size = 1 := hascii c (by simp)
      simp only [byteTake, hc]
      rw [if_pos (by omega)]
      have : m + 1 - 1 = m := by omega
      rw [this]
      rw [ih m (fun d hd => hascii d (by simp [hd])) (by simpa using Nat.lt_succ_iff.mp (Nat.lt_of_succ_le hn))]
      simp

theorem byteSlice_ascii (cs : List Char) (a b : Nat)
    (hascii : ∀ c ∈ cs, c.utf8Size = 1) (hab : a ≤ b) (hb : b ≤ cs.length) :
    byteSlice cs a b = some ((cs.drop a).take (b - a)) := by
  unfold byteSlice
  rw [if_pos hab]
  rw [byteDrop_ascii cs a hascii (Nat.le_trans hab hb)]
  simp only [Option.bind]
  exact byteTake_ascii (cs.drop a)
    (b - a) (fun d hd => hascii d (List.mem_of_mem_drop hd)) (by simp; omega)

theorem scanFrom_found : ∀ (chars : List Char) (i k j : Nat),
    scanFrom chars i k = some j → closeParenAt chars j = true := by
  intro chars i k
  induction k with
  | zero => intro j h; simp [scanFrom] at h
  | succ m ih =>
    intro j h
    simp only [scanFrom] at h
    split at h
    · simp at h
      subst h
      assumption
    · exact ih j h

theorem scanFrom_greatest : ∀ (chars : List Char) (i k j : Nat),
    scanFrom chars i k = some j →
    ∀ l, j < l → l < i + k → closeParenAt chars l = false := by
  intro chars i k
  induction k with
  | zero => intro j h; simp [scanFrom] at h
  | succ m ih =>
    intro j h l hjl hl
    simp only [scanFrom] at h
    split at h
    · simp at h
      omega
    · rename_i hcond
      rcases Nat.lt_or_ge l (i + m) with hlm | hlm
      · exact ih j h l hjl hlm
      · have : l = i + m := by omega
        subst this
        simpa using hcond

theorem scanFrom_none : ∀ (chars : List Char) (i k : Nat),
    scanFrom chars i k = none →
    ∀ l, i ≤ l → l < i + k → closeParenAt chars l = false := by
  intro chars i k
  induction k with
  | zero => intro _ l _ hl; omega
  | succ m ih =>
    intro h l hil hl
    simp only [scanFrom] at h
    split at h
    · simp at h
    · rename_i hcond
      rcases Nat.lt_or_ge l (i + m) with hlm | hlm
      · exact ih h l hil hlm
      · have : l = i + m := by omega
        subst this
        simpa using hcond

theorem isLastTokenExact_getLast (tokens : List Token)
    (h : isLastTokenExact tokens = true) :
    ∃ a, tokens.getLast? = some (a, Quantifier.exact) := by
  unfold isLastTokenExact at h
  split at h
  · rename_i a heq
    exact ⟨a, heq⟩
  · simp at h

theorem newLoop_done (chars : List Char) (i : Nat) (tokens : List Token)
    (h : ¬ i < chars.length) : newLoop chars i tokens = ParseResult.ok tokens := by
  rw [newLoop.eq_def]
  simp only [dif_neg h]

theorem newLoop_escape (chars : List Char) (i : Nat) (tokens : List Token)
    (h : i < chars.length) (hesc : i ≠ 0 ∧ chars.getD (i - 1) ' ' = '\\') :
    newLoop chars i tokens =
      newLoop chars (i + 1)
        (tokens.dropLast ++ [(Atom.char (chars.getD i ' '), Quantifier.exact)]) := by
  rw [newLoop.eq_def]
  simp only [dif_pos h]
  rw [if_pos hesc]

theorem newLoop_dot (chars : List Char) (i : Nat) (tokens : List Token)
    (h : i < chars.length) (hesc : ¬ (i ≠ 0 ∧ chars.getD (i - 1) ' ' = '\\'))
    (hc : chars.getD i ' ' = '.') :
    newLoop chars i tokens =
      newLoop chars (i + 1) (tokens ++ [(Atom.wildcard, Quantifier.exact)]) := by
  rw [newLoop.eq_def]
  simp only [dif_pos h]
  rw [if_neg hesc, if_pos hc]

theorem newLoop_group_found (chars : List Char) (i : Nat) (tokens : List Token)
    (h : i < chars.length) (hesc : ¬ (i ≠ 0 ∧ chars.getD (i - 1) ' ' = '\\'))
    (hc : chars.getD i ' ' = '(') (j : Nat) (hj : scanFind chars i = some j) :
    newLoop chars i tokens =
      (match byteSlice chars (i + 1) j with
       | some sub =>
         (match newLoop sub 0 [] with
          | ParseResult.ok subTokens =>
            newLoop chars (j + 1) (tokens ++ [(Atom.expr subTokens, Quantifier.exact)])
          | e => e)
       | none => ParseResult.panic) := by
  rw [newLoop.eq_def]
  simp only [dif_pos h]
  rw [if_neg hesc]
  rw [if_neg (by rw [hc]; decide)]
  rw [if_pos hc]
  split
  · rename_i j2 hj2
    rw [hj] at hj2
    injection hj2 with hj2
    subst hj2
    split
    · rename_i sub hbs
      rw [hbs]
    · rename_i hbs
      rw [hbs]
  · rename_i hj2
    rw [hj] at hj2
    exact absurd hj2 (by simp)

theorem newLoop_group_none (chars : List Char) (i : Nat) (tokens : List Token)
    (h : i < chars.length) (hesc : ¬ (i ≠ 0 ∧ chars.getD (i - 1) ' ' = '\\'))
    (hc : chars.getD i ' ' = '(') (hj : scanFind chars i = none) :
    newLoop chars i tokens =
      ParseResult.err ("unclosed parenthesis at index " ++ toString i) := by
  rw [newLoop.eq_def]
  simp only [dif_pos h]
  rw [if_neg hesc]
  rw [if_neg (by rw [hc]; decide)]
  rw [if_pos hc]
  split
  · rename_i j2 hj2
    rw [hj] at hj2
    exact absurd hj2.symm (by simp)
  · rfl

theorem isLastTokenExact_of_getLast (tokens : List Token) (a : Atom)
    (hlast : tokens.getLast? = some (a, Quantifier.exact)) :
    isLastTokenExact tokens = true := by
  unfold isLastTokenExact
  rw [hlast]

theorem newLoop_plus (chars : List Char) (i : Nat) (tokens : List Token) (a : Atom)
    (h : i < chars.length) (hesc : ¬ (i ≠ 0 ∧ chars.getD (i - 1) ' ' = '\\'))
    (hc : chars.getD i ' ' = '+')
    (hlast : tokens.getLast? = some (a, Quantifier.exact)) :
    newLoop chars i tokens =
      newLoop chars (i + 1) (tokens ++ [(a, Quantifier.star)]) := by
  rw [newLoop.eq_def]
  simp only [dif_pos h]
  rw [if_neg hesc]
  rw [if_neg (by rw [hc]; decide)]
  rw [if_neg (by rw [hc]; decide)]
  rw [if_pos (by rw [hc]; exact ⟨Or.inr (Or.inl rfl), isLastTokenExact_of_getLast tokens a hlast⟩)]
  simp only [hlast, hc]
  simp

theorem newLoop_star (chars : List Char) (i : Nat) (tokens : List Token) (a : Atom)
    (h : i < chars.length) (hesc : ¬ (i ≠ 0 ∧ chars.getD (i - 1) ' ' = '\\'))
    (hc : chars.getD i ' ' = '*')
    (hlast : tokens.getLast? = some (a, Quantifier.exact)) :
    newLoop chars i tokens =
      newLoop chars (i + 1) (tokens.dropLast ++ [(a, Quantifier.star)]) := by
  rw [newLoop.eq_def]
  simp only [dif_pos h]
  rw [if_neg hesc]
  rw [if_neg (by rw [hc]; decide)]
  rw [if_neg (by rw [hc]; decide)]
  rw [if_pos (by rw [hc]; exact ⟨Or.inl rfl, isLastTokenExact_of_getLast tokens a hlast⟩)]
  simp only [hlast, hc]
  simp

theorem newLoop_opt (chars : List Char) (i : Nat) (tokens : List Token) (a : Atom)
    (h : i < chars.length) (hesc : ¬ (i ≠ 0 ∧ chars.getD (i - 1) ' ' = '\\'))
    (hc : chars.getD i ' ' = '?')
    (hlast : tokens.getLast? = some (a, Quantifier.exact)) :
    newLoop chars i tokens =
      newLoop chars (i + 1) (tokens.dropLast ++ [(a, Quantifier.optional)]) := by
  rw [newLoop.eq_def]
  simp only [dif_pos h]
  rw [if_neg hesc]
  rw [if_neg (by rw [hc]; decide)]
  rw [if_neg (by rw [hc]; decide)]
  rw [if_pos (by rw [hc]; exact ⟨Or.inr (Or.inr rfl), isLastTokenExact_of_getLast tokens a hlast⟩)]
  simp only [hlast, hc]
  simp

theorem newLoop_default (chars : List Char) (i : Nat) (tokens : List Token)
    (h : i < chars.length) (hesc : ¬ (i ≠ 0 ∧ chars.getD (i - 1) ' ' = '\\'))
    (hdot : ¬ chars.getD i ' ' = '.') (hpar : ¬ chars.getD i ' ' = '(')
    (hq : ¬ ((chars.getD i ' ' = '*' ∨ chars.getD i ' ' = '+' ∨ chars.getD i ' ' = '?')
      ∧ isLastTokenExact tokens)) :
    newLoop chars i tokens =
      newLoop chars (i + 1) (tokens ++ [(Atom.char (chars.getD i ' '), Quantifier.exact)]) := by
  rw [newLoop.eq_def]
  simp only [dif_pos h]
  rw [if_neg hesc, if_neg hdot, if_neg hpar, if_neg hq]

theorem scanFind_gt (chars : List Char) (i j : Nat)
    (hsf : scanFind chars i = some j) (hc : chars.getD i ' ' = '(') :
    i + 1 ≤ j ∧ j < chars.length := by
  have hb := scanFind_bounds chars i j hsf
  have hf := scanFrom_found chars i (chars.length - i) j hsf
  unfold closeParenAt at hf
  simp only [Bool.and_eq_true, decide_eq_true_eq] at hf
  have hj : chars.getD j ' ' = ')' := hf.1
  have : j ≠ i := by
    intro he
    rw [he, hc] at hj
    exact absurd hj (by decide)
  omega

theorem ascii_of_byteSlice (chars sub : List Char) (i j : Nat)
    (hascii : ∀ c ∈ chars, c.utf8Size = 1) (hij : i + 1 ≤ j) (hj : j ≤ chars.length)
    (hbs : byteSlice chars (i + 1) j = some sub) : ∀ c ∈ sub, c.utf8Size = 1 := by
  rw [byteSlice_ascii chars (i + 1) j hascii hij hj] at hbs
  injection hbs with hbs
  intro c hc
  rw [← hbs] at hc
  exact hascii c (List.mem_of_mem_drop (List.mem_of_mem_take hc))

theorem newLoop_ascii_good : ∀ (chars : List Char) (i : Nat) (tokens : List Token),
    (∀ c ∈ chars, c.utf8Size = 1) → GoodResult (newLoop chars i tokens) := by
  intro chars i tokens
  induction chars, i, tokens using newLoop.induct with
  | case1 chars i tokens h c hesc ih =>
    intro hascii
    rw [newLoop_escape chars i tokens h hesc]
    exact ih hascii
  | case2 chars i tokens h c hesc hc ih =>
    intro hascii
    rw [newLoop_dot chars i tokens h hesc hc]
    exact ih hascii
  | case3 chars i tokens h c hesc hdot hc j hsf sub hbs subTokens hok ihsub ihcont =>
    intro hascii
    rw [newLoop_group_found chars i tokens h hesc hc j hsf]
    simp only [hbs, hok]
    exact ihcont hascii
  | case4 chars i tokens h c hesc hdot hc j hsf sub hbs hnot ihsub =>
    intro hascii
    rw [newLoop_group_found chars i tokens h hesc hc j hsf]
    simp only [hbs]
    have hgt := scanFind_gt chars i j hsf hc
    have hsubascii := ascii_of_byteSlice chars sub i j hascii hgt.1 (Nat.le_of_lt hgt.2) hbs
    rcases ihsub hsubascii with ⟨t, ht⟩ | ⟨n, hn⟩
    · exact absurd ht (fun hh => hnot t hh)
    · simp only [hn]
      exact Or.inr ⟨n, rfl⟩
  | case5 chars i tokens h c hesc hdot hc j hsf hbs =>
    intro hascii
    exfalso
    have hgt := scanFind_gt chars i j hsf hc
    rw [byteSlice_ascii chars (i + 1) j hascii hgt.1 (Nat.le_of_lt hgt.2)] at hbs
    exact absurd hbs (by simp)
  | case6 chars i tokens h c hesc hdot hc hsf =>
    intro hascii
    rw [newLoop_group_none chars i tokens h hesc hc hsf]
    exact Or.inr ⟨i, rfl⟩
  | case7 chars i tokens h c hesc hdot hpar hq a snd hlast hplus ih =>
    intro hascii
    obtain ⟨a2, h2⟩ := isLastTokenExact_getLast tokens hq.2
    rw [hlast] at h2
    injection h2 with h2
    injection h2 with h2a h2q
    subst h2a
    rw [newLoop_plus chars i tokens a h hesc hplus (by rw [hlast, h2q])]
    exact ih hascii
  | case8 chars i tokens h c hesc hdot hpar hq a snd hlast hnotplus ih =>
    intro hascii
    obtain ⟨a2, h2⟩ := isLastTokenExact_getLast tokens hq.2
    rw [hlast] at h2
    injection h2 with h2
    injection h2 with h2a h2q
    subst h2a
    rcases hq.1 with hc | hc | hc
    · rw [newLoop_star chars i tokens a h hesc hc (by rw [hlast, h2q])]
      have ih2 := ih hascii
      simp only [dif_pos hc] at ih2
      exact ih2
    · exact absurd hc hnotplus
    · rw [newLoop_opt chars i tokens a h hesc hc (by rw [hlast, h2q])]
      have ih2 := ih hascii
      rw [dif_neg (by rw [hc]; decide)] at ih2
      exact ih2
  | case9 chars i tokens h c hesc hdot hpar hq hnone =>
    intro hascii
    obtain ⟨a2, h2⟩ := isLastTokenExact_getLast tokens hq.2
    rw [hnone] at h2
    exact absurd h2 (by simp)
  | case10 chars i tokens h c hesc hdot hpar hq ih =>
    intro hascii
    rw [newLoop_default chars i tokens h hesc hdot hpar hq]
    exact ih hascii
  | case11 chars i tokens h =>
    intro hascii
    rw [newLoop_done chars i tokens h]
    exact Or.inl ⟨tokens, rfl⟩

theorem matchLoop_nil (i consumed : Nat) (chars : List Char) :
    matchLoop [] i consumed chars =
      if consumed = chars.length then some Match.full else some (Match.part consumed) := by
  rw [matchLoop.eq_def]

theorem matchLoop_exact (value : Atom) (rest : List Token) (i consumed : Nat)
    (chars : List Char) :
    matchLoop ((value, Quantifier.exact) :: rest) i consumed chars =
      if consumed = chars.length then
        some (Match.part consumed)
      else
        match value_match_len_at_index chars consumed value with
        | none => none
        | some Match.full => none
        | some (Match.part justConsumed) =>
          if justConsumed = 0 then
            some (Match.part consumed)
          else
            matchLoop rest (i + 1) (consumed + justConsumed) chars := by
  rw [matchLoop.eq_def]

theorem matchLoop_star (value : Atom) (rest : List Token) (i consumed : Nat)
    (chars : List Char) :
    matchLoop ((value, Quantifier.star) :: rest) i consumed chars =
      if consumed = chars.length then
        if rest.isEmpty then some Match.full else some (Match.part consumed)
      else
        match starLoop rest value chars (i + 1) consumed with
        | none => none
        | some StarOut.full => some Match.full
        | some (StarOut.fellThrough consumed1) => matchLoop rest (i + 1) consumed1 chars := by
  rw [matchLoop.eq_def]

theorem matchLoop_optional (value : Atom) (rest : List Token) (i consumed : Nat)
    (chars : List Char) :
    matchLoop ((value, Quantifier.optional) :: rest) i consumed chars =
      if consumed = chars.length then
        if rest.isEmpty then some Match.full else some (Match.part consumed)
      else
        match matchLoop rest 0 0 (chars.drop consumed) with
        | none => none
        | some Match.full => some Match.full
        | some (Match.part _) =>
          match value_match_len_at_index chars consumed value with
          | none => none
          | some Match.full => none
          | some (Match.part justConsumed) =>
            matchLoop rest (i + 1) (consumed + justConsumed) chars := by
  rw [matchLoop.eq_def]

theorem value_match_wildcard (chars : List Char) (index : Nat) :
    value_match_len_at_index chars index Atom.wildcard = some (Match.part 1) := by
  rw [value_match_len_at_index.eq_def]

theorem value_match_char (chars : List Char) (index : Nat) (chr : Char) :
    value_match_len_at_index chars index (Atom.char chr) =
      (if index < chars.length then
        some (Match.part (if chars.getD index ' ' = chr then 1 else 0))
      else
        none) := by
  rw [value_match_len_at_index.eq_def]

theorem value_match_expr (chars : List Char) (index : Nat) (e : List Token) :
    value_match_len_at_index chars index (Atom.expr e) = matchLoop e 0 0 chars := by
  rw [value_match_len_at_index.eq_def]

theorem starLoop_eq (rest : List Token) (value : Atom) (chars : List Char)
    (j consumed : Nat) :
    starLoop rest value chars j consumed =
      if j < chars.length then
        match matchLoop rest 0 0 (chars.drop j) with
        | none => none
        | some Match.full => some StarOut.full
        | some (Match.part _) =>
          match value_match_len_at_index chars j value with
          | none => none
          | some Match.full => none
          | some (Match.part justConsumed) =>
            if justConsumed = 0 then
              some (StarOut.fellThrough consumed)
            else
              starLoop rest value chars (j + 1) (consumed + justConsumed)
      else
        some (StarOut.fellThrough consumed) := by
  rw [starLoop.eq_def, dite_eq_ite]

theorem matchLoop_simple_bound : ∀ (toks : List Token), simpleTokens toks = true →
    ∀ (i consumed : Nat) (chars : List Char), consumed ≤ chars.length →
    ∀ n, matchLoop toks i consumed chars = some (Match.part n) → n ≤ chars.length := by
  intro toks
  induction toks with
  | nil =>
    intro _ i consumed chars hcons n h
    rw [matchLoop_nil] at h
    split at h
    · exact absurd h (by simp)
    · injection h with h
      injection h with h
      omega
  | cons t rest ih =>
    intro hsimple i consumed chars hcons n h
    obtain ⟨a, q⟩ := t
    have hsr : simpleTokens rest = true := by
      simp only [simpleTokens, List.all_cons, Bool.and_eq_true] at hsimple ⊢
      exact hsimple.2
    cases q with
    | star =>
      exfalso
      simp [simpleTokens] at hsimple
    | exact =>
      rw [matchLoop_exact] at h
      split at h
      · injection h with h
        injection h with h
        omega
      · rename_i hne
        cases a with
        | expr e => exfalso; simp [simpleTokens] at hsimple
        | wildcard =>
          rw [value_match_wildcard] at h
          simp only [] at h
          rw [if_neg (by omega)] at h
          exact ih hsr (i + 1) (consumed + 1) chars (by omega) n h
        | char chr =>
          rw [value_match_char] at h
          rw [if_pos (by omega)] at h
          by_cases hch : chars.getD consumed ' ' = chr
          · rw [if_pos hch] at h
            simp only [] at h
            rw [if_neg (by omega)] at h
            exact ih hsr (i + 1) (consumed + 1) chars (by omega) n h
          · rw [if_neg hch] at h
            simp only [] at h
            rw [if_pos trivial] at h
            injection h with h
            injection h with h
            omega
    | optional =>
      rw [matchLoop_optional] at h
      split at h
      · split at h
        · exact absurd h (by simp)
        · injection h with h
          injection h with h
          omega
      · rename_i hne
        split at h
        · exact absurd h (by simp)
        · exact absurd h (by simp)
        · cases a with
          | expr e => exfalso; simp [simpleTokens] at hsimple
          | wildcard =>
            rw [value_match_wildcard] at h
            simp only [] at h
            exact ih hsr (i + 1) (consumed + 1) chars (by omega) n h
          | char chr =>
            rw [value_match_char] at h
            rw [if_pos (by omega)] at h
            by_cases hch : chars.getD consumed ' ' = chr
            · rw [if_pos hch] at h
              simp only [] at h
              exact ih hsr (i + 1) (consumed + 1) chars (by omega) n h
            · rw [if_neg hch] at h
              simp only [Nat.add_zero] at h
              exact ih hsr (i + 1) consumed chars hcons n h

theorem newLoopF_sound : ∀ (fuel : Nat) (chars : List Char) (i : Nat)
    (tokens : List Token) (r : ParseResult),
    newLoopF fuel chars i tokens = some r → newLoop chars i tokens = r := by
  intro fuel
  induction fuel with
  | zero => intro chars i tokens r h; simp [newLoopF] at h
  | succ fuel ih =>
    intro chars i tokens r h
    simp only [newLoopF] at h
    by_cases hlt : i < chars.length
    · rw [if_pos hlt] at h
      by_cases hesc : i ≠ 0 ∧ chars.getD (i - 1) ' ' = '\\'
      · rw [if_pos hesc] at h
        rw [newLoop_escape chars i tokens hlt hesc]
        exact ih _ _ _ _ h
      · rw [if_neg hesc] at h
        by_cases hdot : chars.getD i ' ' = '.'
        · rw [if_pos hdot] at h
          rw [newLoop_dot chars i tokens hlt hesc hdot]
          exact ih _ _ _ _ h
        · rw [if_neg hdot] at h
          by_cases hpar : chars.getD i ' ' = '('
          · rw [if_pos hpar] at h
            cases hsf : scanFind chars i with
            | none =>
              rw [hsf] at h
              simp only [] at h
              rw [newLoop_group_none chars i tokens hlt hesc hpar hsf]
              injection h with h
              try exact h
            | some j =>
              rw [hsf] at h
              simp only [] at h
              rw [newLoop_group_found chars i tokens hlt hesc hpar j hsf]
              cases hbs : byteSlice chars (i + 1) j with
              | none =>
                rw [hbs] at h
                simp only [] at h
                simp only [hbs]
                injection h with h
                try exact h
              | some sub =>
                rw [hbs] at h
                simp only [] at h
                cases hrec : newLoopF fuel sub 0 [] with
                | none => rw [hrec] at h; exact absurd h (by simp)
                | some e =>
                  rw [hrec] at h
                  have he := ih sub 0 [] e hrec
                  simp only [hbs, he]
                  cases e with
                  | ok subTokens =>
                    simp only [] at h
                    exact ih _ _ _ _ h
                  | err m =>
                    simp only [] at h
                    injection h with h
                    try exact h
                  | panic =>
                    simp only [] at h
                    injection h with h
                    try exact h
          · rw [if_neg hpar] at h
            by_cases hq : (chars.getD i ' ' = '*' ∨ chars.getD i ' ' = '+' ∨
                chars.getD i ' ' = '?') ∧ isLastTokenExact tokens
            · rw [if_pos hq] at h
              obtain ⟨a2, hlast⟩ := isLastTokenExact_getLast tokens hq.2
              rw [hlast] at h
              simp only [] at h
              rcases hq.1 with hc | hc | hc
              · rw [if_neg (show ¬chars.getD i ' ' = '+' by rw [hc]; decide)] at h
                rw [if_pos hc] at h
                rw [newLoop_star chars i tokens a2 hlt hesc hc hlast]
                exact ih _ _ _ _ h
              · rw [if_pos hc] at h
                rw [newLoop_plus chars i tokens a2 hlt hesc hc hlast]
                exact ih _ _ _ _ h
              · rw [if_neg (show ¬chars.getD i ' ' = '+' by rw [hc]; decide)] at h
                rw [if_neg (show ¬chars.getD i ' ' = '*' by rw [hc]; decide)] at h
                rw [newLoop_opt chars i tokens a2 hlt hesc hc hlast]
                exact ih _ _ _ _ h
            · rw [if_neg hq] at h
              rw [newLoop_default chars i tokens hlt hesc hdot hpar hq]
              exact ih _ _ _ _ h
    · rw [if_neg hlt] at h
      injection h with h
      rw [newLoop_done chars i tokens hlt]
      exact h

theorem matcherF_sound : ∀ fuel : Nat,
    (∀ (suffix : List Token) (i consumed : Nat) (chars : List Char) (r : Option Match),
      matchLoopF fuel suffix i consumed chars = some r →
      matchLoop suffix i consumed chars = r)
    ∧ (∀ (rest : List Token) (value : Atom) (chars : List Char) (j consumed : Nat)
        (r : Option StarOut),
      starLoopF fuel rest value chars j consumed = some r →
      starLoop rest value chars j consumed = r)
    ∧ (∀ (chars : List Char) (index : Nat) (value : Atom) (r : Option Match),
      valueF fuel chars index value = some r →
      value_match_len_at_index chars index value = r) := by
  intro fuel
  induction fuel with
  | zero =>
    refine ⟨?_, ?_, ?_⟩
    · intro suffix i consumed chars r h; simp [matchLoopF] at h
    · intro rest value chars j consumed r h; simp [starLoopF] at h
    · intro chars index value r h; simp [valueF] at h
  | succ fuel ih =>
    obtain ⟨ihm, ihs, ihv⟩ := ih
    refine ⟨?_, ?_, ?_⟩
    · intro suffix i consumed chars r h
      cases suffix with
      | nil =>
        simp only [matchLoopF] at h
        injection h with h
        rw [matchLoop_nil]
        exact h
      | cons t rest =>
        obtain ⟨value, q⟩ := t
        cases q with
        | exact =>
          simp only [matchLoopF] at h
          rw [matchLoop_exact]
          by_cases hc : consumed = chars.length
          · rw [if_pos hc] at h
            rw [if_pos hc]
            injection h with h
            try exact h
          · rw [if_neg hc] at h
            rw [if_neg hc]
            cases hv : valueF fuel chars consumed value with
            | none => rw [hv] at h; exact absurd h (by simp)
            | some v =>
              rw [hv] at h
              try simp only [] at h
              rw [ihv chars consumed value v hv]
              cases v with
              | none =>
                injection h with h
                try exact h
              | some m =>
                cases m with
                | full =>
                  injection h with h
                  try exact h
                | part jc =>
                  try simp only [] at h
                  try simp only []
                  by_cases hjc : jc = 0
                  · rw [if_pos hjc] at h
                    rw [if_pos hjc]
                    injection h with h
                    try exact h
                  · rw [if_neg hjc] at h
                    rw [if_neg hjc]
                    exact ihm _ _ _ _ _ h
        | star =>
          simp only [matchLoopF] at h
          rw [matchLoop_star]
          by_cases hc : consumed = chars.length
          · rw [if_pos hc] at h
            rw [if_pos hc]
            injection h with h
            try exact h
          · rw [if_neg hc] at h
            rw [if_neg hc]
            cases hs : starLoopF fuel rest value chars (i + 1) consumed with
            | none => rw [hs] at h; exact absurd h (by simp)
            | some s =>
              rw [hs] at h
              try simp only [] at h
              rw [ihs rest value chars (i + 1) consumed s hs]
              cases s with
              | none =>
                injection h with h
                try exact h
              | some so =>
                cases so with
                | full =>
                  injection h with h
                  try exact h
                | fellThrough consumed1 =>
                  try simp only [] at h
                  try simp only []
                  exact ihm _ _ _ _ _ h
        | optional =>
          simp only [matchLoopF] at h
          rw [matchLoop_optional]
          by_cases hc : consumed = chars.length
          · rw [if_pos hc] at h
            rw [if_pos hc]
            injection h with h
            try exact h
          · rw [if_neg hc] at h
            rw [if_neg hc]
            cases hz : matchLoopF fuel rest 0 0 (chars.drop consumed) with
            | none => rw [hz] at h; exact absurd h (by simp)
            | some z =>
              rw [hz] at h
              try simp only [] at h
              rw [ihm rest 0 0 (chars.drop consumed) z hz]
              cases z with
              | none =>
                injection h with h
                try exact h
              | some m =>
                cases m with
                | full =>
                  injection h with h
                  try exact h
                | part k =>
                  try simp only [] at h
                  try simp only []
                  cases hv : valueF fuel chars consumed value with
                  | none => rw [hv] at h; exact absurd h (by simp)
                  | some v =>
                    rw [hv] at h
                    try simp only [] at h
                    rw [ihv chars consumed value v hv]
                    cases v with
                    | none =>
                      injection h with h
                      try exact h
                    | some m2 =>
                      cases m2 with
                      | full =>
                        injection h with h
                        try exact h
                      | part jc =>
                        try simp only [] at h
                        try simp only []
                        exact ihm _ _ _ _ _ h
    · intro rest value chars j consumed r h
      simp only [starLoopF] at h
      rw [starLoop_eq]
      by_cases hj : j < chars.length
      · rw [if_pos hj] at h
        rw [if_pos hj]
        cases hz : matchLoopF fuel rest 0 0 (chars.drop j) with
        | none => rw [hz] at h; exact absurd h (by simp)
        | some z =>
          rw [hz] at h
          try simp only [] at h
          rw [ihm rest 0 0 (chars.drop j) z hz]
          cases z with
          | none =>
            injection h with h
            try exact h
          | some m =>
            cases m with
            | full =>
              injection h with h
              try exact h
            | part k =>
              try simp only [] at h
              try simp only []
              cases hv : valueF fuel chars j value with
              | none => rw [hv] at h; exact absurd h (by simp)
              | some v =>
                rw [hv] at h
                try simp only [] at h
                rw [ihv chars j value v hv]
                cases v with
                | none =>
                  injection h with h
                  try exact h
                | some m2 =>
                  cases m2 with
                  | full =>
                    injection h with h
                    try exact h
                  | part jc =>
                    try simp only [] at h
                    try simp only []
                    by_cases hjc : jc = 0
                    · rw [if_pos hjc] at h
                      rw [if_pos hjc]
                      injection h with h
                      try exact h
                    · rw [if_neg hjc] at h
                      rw [if_neg hjc]
                      exact ihs _ _ _ _ _ _ h
      · rw [if_neg hj] at h
        rw [if_neg hj]
        injection h with h
        try exact h
    · intro chars index value r h
      cases value with
      | wildcard =>
        simp only [valueF] at h
        rw [value_match_wildcard]
        injection h with h
        try exact h
      | char chr =>
        simp only [valueF] at h
        rw [value_match_char]
        injection h with h
        try exact h
      | expr e =>
        simp only [valueF] at h
        rw [value_match_expr]
        exact ihm _ _ _ _ _ h

theorem new_eval (chars : List Char) (fuel : Nat) (r : ParseResult)
    (h : newLoopF fuel chars 0 [] = some r) : Regexp.new chars = r :=
  newLoopF_sound fuel chars 0 [] r h

theorem start_match_eval (r : Regexp) (chars : List Char) (fuel : Nat) (m : Option Match)
    (h : matchLoopF fuel r 0 0 chars = some m) : Regexp.start_match r chars = m :=
  (matcherF_sound fuel).1 r 0 0 chars m h

theorem matches_full (r : Regexp) (chars : List Char)
    (h : Regexp.start_match r chars = some Match.full) :
    Regexp.matches r chars = some true := by
  unfold Regexp.matches
  rw [h]

theorem matches_part (r : Regexp) (chars : List Char) (n : Nat)
    (h : Regexp.start_match r chars = some (Match.part n)) :
    Regexp.matches r chars = some false := by
  unfold Regexp.matches
  rw [h]

theorem matches_none (r : Regexp) (chars : List Char)
    (h : Regexp.start_match r chars = none) :
    Regexp.matches r chars = none := by
  unfold Regexp.matches
  rw [h]

/-- C1: the claim says `Regexp::matches` never panics for a successfully
compiled pattern and that the matcher's group-full-match defect branch
(`unimplemented!()`) is never reached.  The code refutes it: compiling the
pattern `(a)` succeeds, and matching it against the input `a` makes
`value_match_len_at_index` return `Match::Full` for the group atom (the
nested tree fully matches the whole outer input), which drives the `Exact`
arm of `start_match` into `unimplemented!()` — a panic, modelled here by
`none`. -/
theorem C1_group_full_match_panics :
    Regexp.new ['(', 'a', ')'] =
      ParseResult.ok [(Atom.expr [(Atom.char 'a', Quantifier.exact)], Quantifier.exact)]
    ∧ Regexp.matches [(Atom.expr [(Atom.char 'a', Quantifier.exact)], Quantifier.exact)]
        ['a'] = none :=
  ⟨new_eval _ 10 _ rfl, matches_none _ _ (start_match_eval _ _ 10 none rfl)⟩

/-- C2 (amended): for every pattern whose characters are all single-byte
(so that the byte offsets used by the group rule coincide with char
indices), `Regexp::new` either returns `Ok` or returns an
unclosed-parenthesis error whose message is `"unclosed parenthesis at
index i"` for the scan index `i` of the `(` that the failing scan was
processing (an index relative to the sub-pattern being compiled), and it
never panics; the empty pattern compiles to an empty token sequence and a
stray quantifier character compiles as a literal. -/
theorem C2_compile_ascii_total :
    (∀ chars : List Char, (∀ c ∈ chars, c.utf8Size = 1) → GoodResult (Regexp.new chars))
    ∧ Regexp.new [] = ParseResult.ok []
    ∧ Regexp.new ['*'] = ParseResult.ok [(Atom.char '*', Quantifier.exact)] :=
  ⟨fun chars h => newLoop_ascii_good chars 0 [] h, new_eval _ 10 _ rfl, new_eval _ 10 _ rfl⟩

/-- C2 counterexample: the claim quantifies over every pattern string and
asserts compilation never panics, but `Regexp::new("€(a)")` panics: the
group rule slices `&pattern[2..3]` (char indices of the scan used as byte
offsets into the UTF-8 text) and byte 2 falls inside the three-byte `'€'`,
which is not a char boundary. -/
theorem C2_compile_panics_on_multibyte :
    Regexp.new ['€', '(', 'a', ')'] = ParseResult.panic :=
  new_eval _ 10 _ rfl

/-- C2 witness: the amended theorem applied to the concrete single-byte
pattern `(ab`. -/
theorem C2_witness_ascii :
    (∀ c ∈ ['(', 'a', 'b'], Char.utf8Size c = 1) ∧ GoodResult (Regexp.new ['(', 'a', 'b']) :=
  ⟨by decide, C2_compile_ascii_total.1 ['(', 'a', 'b'] (by decide)⟩

/-- C3 (amended): `start_match` always returns `Full` or `Partial n`, and
for trees with no `Star`-quantified token and no group atom the consumed
count `n` of a `Partial n` result is at most the input length.  (For trees
with stars or groups the bound fails, see the counterexample: the `Star`
arm seeds its repetition position from the token index and keeps adding
match lengths to `consumed`.) -/
theorem C3_bound_simple :
    ∀ (toks : List Token) (chars : List Char) (n : Nat), simpleTokens toks = true →
      Regexp.start_match toks chars = some (Match.part n) → n ≤ chars.length := by
  intro toks chars n hs h
  exact matchLoop_simple_bound toks hs 0 0 chars (Nat.zero_le chars.length) n h

/-- C3 counterexample: the pattern `a*.*` compiles to two star tokens, and
matching it against `aaaa` (length 4) returns `Partial 5`: the claimed
bound `n ≤ length of the input suffix` is violated. -/
theorem C3_consumed_exceeds_input :
    Regexp.new ['a', '*', '.', '*'] =
      ParseResult.ok [(Atom.char 'a', Quantifier.star), (Atom.wildcard, Quantifier.star)]
    ∧ Regexp.start_match [(Atom.char 'a', Quantifier.star), (Atom.wildcard, Quantifier.star)]
        ['a', 'a', 'a', 'a'] = some (Match.part 5)
    ∧ ¬ (5 ≤ List.length ['a', 'a', 'a', 'a']) :=
  ⟨new_eval _ 10 _ rfl, start_match_eval _ _ 100 _ rfl, by simp⟩

/-- C3 witness: the amended bound applied to a concrete star-free,
group-free tree and input. -/
theorem C3_witness_simple :
    simpleTokens [(Atom.char 'a', Quantifier.exact)] = true ∧
      Regexp.start_match [(Atom.char 'a', Quantifier.exact)] ['b'] = some (Match.part 0) ∧
      0 ≤ List.length ['b'] :=
  ⟨by decide, start_match_eval _ _ 10 _ rfl,
    C3_bound_simple [(Atom.char 'a', Quantifier.exact)] ['b'] 0 (by decide)
      (start_match_eval _ _ 10 _ rfl)⟩

/-- C4: when the `Exact` arm of `start_match` evaluates a group atom, the
match length is produced by running `start_match` of the entire nested
tree on the whole input sequence of the current call:
`value_match_len_at_index` ignores its `index` argument for `Expr` atoms,
so the `consumed` offset is not applied. -/
theorem C4_group_offset_not_applied :
    ∀ (e rest : List Token) (i consumed index : Nat) (chars : List Char),
      value_match_len_at_index chars index (Atom.expr e) = Regexp.start_match e chars
      ∧ (consumed < chars.length →
        matchLoop ((Atom.expr e, Quantifier.exact) :: rest) i consumed chars =
          (match Regexp.start_match e chars with
           | none => none
           | some Match.full => none
           | some (Match.part justConsumed) =>
             if justConsumed = 0 then
               some (Match.part consumed)
             else
               matchLoop rest (i + 1) (consumed + justConsumed) chars)) := by
  intro e rest i consumed index chars
  constructor
  · rw [value_match_expr]
    rfl
  · intro hlt
    rw [matchLoop_exact]
    rw [if_neg (by omega)]
    rw [value_match_expr]
    rfl

/-- C4 witness: for the tree `(ab)`-style group `[(Char a, Exact)]` inside
an outer `Exact` token with one character already consumed, the group is
still evaluated against the whole input `ab` from position 0 (match length
1 at the already-consumed position), which lets the outer walk report a
full match of `aa`-style double consumption. -/
theorem C4_witness :
    value_match_len_at_index ['a', 'b'] 5 (Atom.expr [(Atom.char 'a', Quantifier.exact)]) =
      Regexp.start_match [(Atom.char 'a', Quantifier.exact)] ['a', 'b']
    ∧ matchLoop [(Atom.expr [(Atom.char 'a', Quantifier.exact)], Quantifier.exact)]
        0 1 ['a', 'b'] = some Match.full := by
  have h := C4_group_offset_not_applied [(Atom.char 'a', Quantifier.exact)] [] 0 1 5 ['a', 'b']
  refine ⟨h.1, ?_⟩
  rw [h.2 (by decide)]
  rw [start_match_eval [(Atom.char 'a', Quantifier.exact)] ['a', 'b'] 10 (some (Match.part 1)) rfl]
  exact (matcherF_sound 10).1 [] (0 + 1) (1 + 1) ['a', 'b'] (some Match.full) rfl

/-- C5: when the scanner reads `+` (not escape-preceded) and the last
emitted token has quantifier `Exact`, that token is left unchanged and a
new token with the same atom and quantifier `Star` is appended; the
compiled `a+b*\.` matches `abbb.` and `aaaa.` and matches neither `b.` nor
`ab!`. -/
theorem C5_plus_appends_star :
    (∀ (chars : List Char) (i : Nat) (tokens : List Token) (a : Atom),
      i < chars.length → ¬ (i ≠ 0 ∧ chars.getD (i - 1) ' ' = '\\') →
      chars.getD i ' ' = '+' →
      tokens.getLast? = some (a, Quantifier.exact) →
      newLoop chars i tokens = newLoop chars (i + 1) (tokens ++ [(a, Quantifier.star)]))
    ∧ Regexp.new ['a', '+', 'b', '*', '\\', '.'] =
        ParseResult.ok [(Atom.char 'a', Quantifier.exact), (Atom.char 'a', Quantifier.star),
          (Atom.char 'b', Quantifier.star), (Atom.char '.', Quantifier.exact)]
    ∧ Regexp.matches [(Atom.char 'a', Quantifier.exact), (Atom.char 'a', Quantifier.star),
        (Atom.char 'b', Quantifier.star), (Atom.char '.', Quantifier.exact)]
        ['a', 'b', 'b', 'b', '.'] = some true
    ∧ Regexp.matches [(Atom.char 'a', Quantifier.exact), (Atom.char 'a', Quantifier.star),
        (Atom.char 'b', Quantifier.star), (Atom.char '.', Quantifier.exact)]
        ['a', 'a', 'a', 'a', '.'] = some true
    ∧ Regexp.matches [(Atom.char 'a', Quantifier.exact), (Atom.char 'a', Quantifier.star),
        (Atom.char 'b', Quantifier.star), (Atom.char '.', Quantifier.exact)]
        ['b', '.'] = some false
    ∧ Regexp.matches [(Atom.char 'a', Quantifier.exact), (Atom.char 'a', Quantifier.star),
        (Atom.char 'b', Quantifier.star), (Atom.char '.', Quantifier.exact)]
        ['a', 'b', '!'] = some false := by
  refine ⟨?_, new_eval _ 10 _ rfl,
    matches_full _ _ (start_match_eval _ _ 100 _ rfl),
    matches_full _ _ (start_match_eval _ _ 100 _ rfl),
    matches_part _ _ 0 (start_match_eval _ _ 100 _ rfl),
    matches_part _ _ 1 (start_match_eval _ _ 100 _ rfl)⟩
  intro chars i tokens a h hesc hc hlast
  exact newLoop_plus chars i tokens a h hesc hc hlast

/-- C5 witness: the step equation applied at position 1 of the pattern
`a+`. -/
theorem C5_witness :
    newLoop ['a', '+'] 1 [(Atom.char 'a', Quantifier.exact)] =
      newLoop ['a', '+'] 2
        [(Atom.char 'a', Quantifier.exact), (Atom.char 'a', Quantifier.star)] :=
  C5_plus_appends_star.1 ['a', '+'] 1 [(Atom.char 'a', Quantifier.exact)] (Atom.char 'a')
    (by decide) (by decide) (by decide) rfl

/-- C6: when the character immediately preceding the scan position in the
source is a backslash, the most recently emitted token is discarded
(`tokens.pop()`) and replaced by `(Char(currentChar), Exact)`; the
compiled `a\.b` matches `a.b` and does not match `axb`. -/
theorem C6_escape_replaces_last :
    (∀ (chars : List Char) (i : Nat) (tokens : List Token),
      i < chars.length → i ≠ 0 → chars.getD (i - 1) ' ' = '\\' →
      newLoop chars i tokens =
        newLoop chars (i + 1)
          (tokens.dropLast ++ [(Atom.char (chars.getD i ' '), Quantifier.exact)]))
    ∧ Regexp.new ['a', '\\', '.', 'b'] =
        ParseResult.ok [(Atom.char 'a', Quantifier.exact), (Atom.char '.', Quantifier.exact),
          (Atom.char 'b', Quantifier.exact)]
    ∧ Regexp.matches [(Atom.char 'a', Quantifier.exact), (Atom.char '.', Quantifier.exact),
        (Atom.char 'b', Quantifier.exact)] ['a', '.', 'b'] = some true
    ∧ Regexp.matches [(Atom.char 'a', Quantifier.exact), (Atom.char '.', Quantifier.exact),
        (Atom.char 'b', Quantifier.exact)] ['a', 'x', 'b'] = some false := by
  refine ⟨?_, new_eval _ 10 _ rfl,
    matches_full _ _ (start_match_eval _ _ 10 _ rfl),
    matches_part _ _ 1 (start_match_eval _ _ 10 _ rfl)⟩
  intro chars i tokens h h0 hb
  exact newLoop_escape chars i tokens h ⟨h0, hb⟩

/-- C6 witness: the escape step applied at position 2 of the pattern
`a\x`: the freshly pushed backslash token is discarded and replaced by
`(Char x, Exact)`. -/
theorem C6_witness :
    newLoop ['a', '\\', 'x'] 2
        [(Atom.char 'a', Quantifier.exact), (Atom.char '\\', Quantifier.exact)] =
      newLoop ['a', '\\', 'x'] 3
        [(Atom.char 'a', Quantifier.exact), (Atom.char 'x', Quantifier.exact)] :=
  C6_escape_replaces_last.1 ['a', '\\', 'x'] 2
    [(Atom.char 'a', Quantifier.exact), (Atom.char '\\', Quantifier.exact)]
    (by decide) (by decide) (by decide)

/-- C7: the characters `*`, `+`, `?` act as quantifiers only when the most
recently emitted token still has quantifier `Exact`.  First conjunct: in
every other case (including the empty token sequence) the character is
emitted as an ordinary literal `(Char c, Exact)` token — never an error;
the hypothesis that the preceding source character is not a backslash
reflects the dispatch order of the Rust `match` (the escape arm precedes
the quantifier arms).  Second conjunct: that hypothesis is no loss, since
processing any backslash (escaped or not) always leaves the token list
ending in an `Exact` token, so a reachable state whose previous character
is a backslash always has `is_last_token_exact` true.  Third conjunct: a
pattern starting with `*` compiles the `*` as a literal. -/
theorem C7_quantifier_literal_fallback :
    (∀ (chars : List Char) (i : Nat) (tokens : List Token),
      i < chars.length →
      (chars.getD i ' ' = '*' ∨ chars.getD i ' ' = '+' ∨ chars.getD i ' ' = '?') →
      isLastTokenExact tokens = false →
      ¬ (i ≠ 0 ∧ chars.getD (i - 1) ' ' = '\\') →
      newLoop chars i tokens =
        newLoop chars (i + 1) (tokens ++ [(Atom.char (chars.getD i ' '), Quantifier.exact)]))
    ∧ (∀ (chars : List Char) (i : Nat) (tokens : List Token),
      i < chars.length → chars.getD i ' ' = '\\' →
      newLoop chars i tokens =
        newLoop chars (i + 1)
          ((if i ≠ 0 ∧ chars.getD (i - 1) ' ' = '\\' then tokens.dropLast else tokens)
            ++ [(Atom.char '\\', Quantifier.exact)])
      ∧ isLastTokenExact
          ((if i ≠ 0 ∧ chars.getD (i - 1) ' ' = '\\' then tokens.dropLast else tokens)
            ++ [(Atom.char '\\', Quantifier.exact)]) = true)
    ∧ Regexp.new ['*'] = ParseResult.ok [(Atom.char '*', Quantifier.exact)] := by
  refine ⟨?_, ?_, new_eval _ 10 _ rfl⟩
  · intro chars i tokens h hq hlast hesc
    have hq2 : ¬ ((chars.getD i ' ' = '*' ∨ chars.getD i ' ' = '+' ∨ chars.getD i ' ' = '?')
        ∧ isLastTokenExact tokens) := by
      intro hand
      rw [hlast] at hand
      exact absurd hand.2 (by simp)
    rcases hq with hc | hc | hc <;>
      exact newLoop_default chars i tokens h hesc (by rw [hc]; decide) (by rw [hc]; decide) hq2
  · intro chars i tokens h hb
    constructor
    · by_cases hesc : i ≠ 0 ∧ chars.getD (i - 1) ' ' = '\\'
      · rw [if_pos hesc]
        rw [newLoop_escape chars i tokens h hesc, hb]
      · rw [if_neg hesc]
        rw [newLoop_default chars i tokens h hesc (by rw [hb]; decide) (by rw [hb]; decide) ?hq]
        case hq =>
          intro hand
          rcases hand.1 with h1 | h1 | h1 <;> rw [hb] at h1 <;> exact absurd h1 (by decide)
        rw [hb]
    · unfold isLastTokenExact
      rw [List.getLast?_concat]

/-- C7 witness: the literal-fallback step applied to the pattern `*` with
an empty token sequence. -/
theorem C7_witness :
    newLoop ['*'] 0 [] = newLoop ['*'] 1 [(Atom.char '*', Quantifier.exact)] :=
  C7_quantifier_literal_fallback.1 ['*'] 0 [] (by decide) (Or.inl (by decide)) (by decide)
    (by decide)

/-- C8: when the matcher reaches a `Star`- or `Optional`-quantified token
with the input exhausted (`consumed == chars.len()`), the result is `Full`
exactly when that token is the last of the token suffix, and
`Partial consumed` otherwise. -/
theorem C8_exhausted_star_optional :
    ∀ (a : Atom) (q : Quantifier) (rest : List Token) (i consumed : Nat) (chars : List Char),
      (q = Quantifier.star ∨ q = Quantifier.optional) → consumed = chars.length →
      matchLoop ((a, q) :: rest) i consumed chars =
        (if rest.isEmpty then some Match.full else some (Match.part consumed)) := by
  intro a q rest i consumed chars hq hc
  rcases hq with hq | hq <;> subst hq
  · rw [matchLoop_star, if_pos hc]
  · rw [matchLoop_optional, if_pos hc]

/-- C8 witness: a last star token with exhausted input yields `Full`. -/
theorem C8_witness :
    matchLoop [(Atom.wildcard, Quantifier.star)] 0 1 ['x'] = some Match.full := by
  have h := C8_exhausted_star_optional Atom.wildcard Quantifier.star [] 0 1 ['x']
    (Or.inl rfl) (by decide)
  simpa using h

/-- C9 (amended): on scanning `(` (not escape-preceded) the compiler
scans backward from the end of the pattern, accepting the first `)`
encountered right-to-left whose preceding character is not a backslash;
for patterns of single-byte characters it recursively compiles the
substring strictly between the parentheses into a nested tree emitted as
an `Exact` group token and resumes immediately after that `)`; if no such
`)` exists it fails with the "unclosed parenthesis" error carrying the
scan index of the `(`.  (For patterns with multi-byte characters the
recursive slice is taken at byte offsets equal to the char indices, which
can select a different substring or panic — see the counterexample.) -/
theorem C9_group_scan :
    ∀ (chars : List Char) (i : Nat) (tokens : List Token),
      i < chars.length → chars.getD i ' ' = '(' →
      ¬ (i ≠ 0 ∧ chars.getD (i - 1) ' ' = '\\') →
      (∀ c ∈ chars, c.utf8Size = 1) →
      (∀ j, scanFind chars i = some j →
        closeParenAt chars j = true
        ∧ (∀ l, j < l → l < chars.length → closeParenAt chars l = false)
        ∧ i + 1 ≤ j ∧ j < chars.length
        ∧ newLoop chars i tokens =
            (match newLoop ((chars.drop (i + 1)).take (j - (i + 1))) 0 [] with
             | ParseResult.ok subTokens =>
               newLoop chars (j + 1) (tokens ++ [(Atom.expr subTokens, Quantifier.exact)])
             | e => e))
      ∧ (scanFind chars i = none →
        (∀ l, i ≤ l → l < chars.length → closeParenAt chars l = false)
        ∧ newLoop chars i tokens =
            ParseResult.err ("unclosed parenthesis at index " ++ toString i)) := by
  intro chars i tokens h hc hesc hascii
  constructor
  · intro j hj
    have hgt := scanFind_gt chars i j hj hc
    refine ⟨scanFrom_found chars i (chars.length - i) j hj, ?_, hgt.1, hgt.2, ?_⟩
    · intro l hjl hl
      exact scanFrom_greatest chars i (chars.length - i) j hj l hjl (by omega)
    · rw [newLoop_group_found chars i tokens h hesc hc j hj]
      rw [byteSlice_ascii chars (i + 1) j hascii hgt.1 (Nat.le_of_lt hgt.2)]
  · intro hj
    refine ⟨?_, newLoop_group_none chars i tokens h hesc hc hj⟩
    intro l hil hl
    exact scanFrom_none chars i (chars.length - i) hj l hil (by omega)

/-- C9 counterexample: the claim says the compiler recursively compiles
the substring strictly between the parentheses.  For `é(a)` the
parentheses enclose `a`, but the code slices the pattern at byte offsets
2..3 (char indices), which inside the two-byte `é` shifts the window onto
`(` — the recursion compiles `(` and the whole compilation fails with an
unclosed-parenthesis error instead of producing the group over `a`. -/
theorem C9_multibyte_slice_miscompiles :
    Regexp.new ['é', '(', 'a', ')'] = ParseResult.err "unclosed parenthesis at index 0"
    ∧ Regexp.new ['é', '(', 'a', ')'] ≠
        ParseResult.ok [(Atom.char 'é', Quantifier.exact),
          (Atom.expr [(Atom.char 'a', Quantifier.exact)], Quantifier.exact)] := by
  have h : Regexp.new ['é', '(', 'a', ')'] =
      ParseResult.err "unclosed parenthesis at index 0" := new_eval _ 10 _ rfl
  exact ⟨h, by rw [h]; simp⟩

/-- C9 witness: the unclosed-parenthesis direction of the group-scan
theorem applied to the concrete pattern `(ab`. -/
theorem C9_witness :
    Regexp.new ['(', 'a', 'b'] =
      ParseResult.err ("unclosed parenthesis at index " ++ toString 0) :=
  ((C9_group_scan ['(', 'a', 'b'] 0 [] (by decide) (by decide) (by decide)
    (by decide)).2 (by decide)).2

/-- C10: for every character `x`, the three-character pattern `\\x`
(backslash, backslash, `x`) compiles to the single token
`(Char x, Exact)`: the second backslash is escape-processed into a
literal-backslash token, and then the escape arm fires again at `x`
(because the source character before `x` is a backslash), discarding the
literal-backslash token and replacing it with `(Char x, Exact)`. -/
theorem C10_double_backslash_escape :
    ∀ x : Char, Regexp.new ['\\', '\\', x] =
      ParseResult.ok [(Atom.char x, Quantifier.exact)] := by
  intro x
  show newLoop ['\\', '\\', x] 0 [] = _
  rw [newLoop_default ['\\', '\\', x] 0 []
    (by show (0 : Nat) < 3; decide)
    (by show ¬ ((0 : Nat) ≠ 0 ∧ '\\' = '\\'); decide)
    (by show ¬ ('\\' = '.'); decide)
    (by show ¬ ('\\' = '('); decide)
    (by show ¬ (('\\' = '*' ∨ '\\' = '+' ∨ '\\' = '?')
      ∧ isLastTokenExact ([] : List Token)); decide)]
  rw [newLoop_escape ['\\', '\\', x] 1 _
    (by show (1 : Nat) < 3; decide)
    (by exact ⟨by decide, by show ('\\' : Char) = '\\'; rfl⟩)]
  rw [newLoop_escape ['\\', '\\', x] 2 _
    (by show (2 : Nat) < 3; decide)
    (by exact ⟨by decide, by show ('\\' : Char) = '\\'; rfl⟩)]
  rw [newLoop_done ['\\', '\\', x] 3 _ (by show ¬ ((3 : Nat) < 3); decide)]
  rfl
